import Mathlib

/-!
Shallow embedding of `stppg.py` (STPPG: Spatio-Temporal Point Process
Generator).  Real scalars become `ℝ`; numpy arrays of historical events
become Lean lists, and the vectorised kernel evaluations (which numpy
performs elementwise over the history axis) become per-event functions
mapped over the zipped history arrays.  The pseudorandom draws consumed by
the samplers become explicit input streams: the uniform candidate points of
`_homogeneous_poisson_sampling` become an input list `raw`, and the
`np.random.uniform()` variates drawn one per candidate during
`_inhomogeneous_poisson_thinning` become a stream `D : ℕ → ℝ` consumed in
order.  The `while` loop of `generate` is given explicit fuel and returns
`none` when the fuel runs out, modelling non-termination.  The code works
with two spatial dimensions throughout (`delta_s[:, 0]`, `delta_s[:, 1]`),
so locations are pairs.
-/

/-- A spatial location `(x, y)`: the two spatial coordinates of a sample. -/
abbrev Loc : Type := ℝ × ℝ

/-- An event `(t, (x, y))`: one row `(t, x, y)` of a point array. -/
abbrev Event : Type := ℝ × Loc

/-- Parameters stored by `StdDiffusionKernel.__init__`. -/
structure StdDiffusionKernel where
  C : ℝ
  beta : ℝ
  sigma_x : ℝ
  sigma_y : ℝ

/-- The `__init__` of `StdDiffusionKernel`, in its Python parameter order. -/
def StdDiffusionKernel.init (C beta sigma_x sigma_y : ℝ) : StdDiffusionKernel :=
  { C := C, beta := beta, sigma_x := sigma_x, sigma_y := sigma_y }

/-- One entry of the array returned by `StdDiffusionKernel.nu`: the
contribution of a single historical event `(ht, hs)`, following the source
formula `exp(-beta*dt) * (C / (2 pi sx sy dt)) * exp((-1/(2 dt)) * ((dx/sx)^2 + (dy/sy)^2))`. -/
noncomputable def StdDiffusionKernel.nuAt (k : StdDiffusionKernel) (t : ℝ) (s : Loc) (ht : ℝ)
    (hs : Loc) : ℝ :=
  let delta_t := t - ht
  let delta_x := s.1 - hs.1
  let delta_y := s.2 - hs.2
  Real.exp (-k.beta * delta_t) *
    (k.C / (2 * Real.pi * k.sigma_x * k.sigma_y * delta_t)) *
    Real.exp (-1 / (2 * delta_t) *
      (delta_x ^ 2 / k.sigma_x ^ 2 + delta_y ^ 2 / k.sigma_y ^ 2))

/-- Method `nu` of `StdDiffusionKernel` on parallel history arrays: numpy evaluates the
formula elementwise over the history axis. -/
noncomputable def StdDiffusionKernel.nu (k : StdDiffusionKernel) (t : ℝ) (s : Loc)
    (his_t : List ℝ) (his_s : List Loc) : List ℝ :=
  (his_t.zip his_s).map fun e => k.nuAt t s e.1 e.2

/-- Parameters stored by `GaussianDiffusionKernel.__init__`. -/
structure GaussianDiffusionKernel where
  C : ℝ
  beta : ℝ
  mu_x : ℝ
  mu_y : ℝ
  sigma_x : ℝ
  sigma_y : ℝ
  rho : ℝ

/-- The `__init__` of `GaussianDiffusionKernel`, in its Python parameter
order `(mu_x, mu_y, sigma_x, sigma_y, rho, beta, C)`.  It only stores the
parameters: the source performs no validation whatsoever. -/
def GaussianDiffusionKernel.init (mu_x mu_y sigma_x sigma_y rho beta C : ℝ) :
    GaussianDiffusionKernel :=
  { C := C, beta := beta, mu_x := mu_x, mu_y := mu_y,
    sigma_x := sigma_x, sigma_y := sigma_y, rho := rho }

/-- One entry of the array returned by `GaussianDiffusionKernel.nu`. -/
noncomputable def GaussianDiffusionKernel.nuAt (k : GaussianDiffusionKernel) (t : ℝ) (s : Loc)
    (ht : ℝ) (hs : Loc) : ℝ :=
  let delta_t := t - ht
  let delta_x := s.1 - hs.1
  let delta_y := s.2 - hs.2
  Real.exp (-k.beta * delta_t) *
    (k.C / (2 * Real.pi * k.sigma_x * k.sigma_y * delta_t *
      Real.sqrt (1 - k.rho ^ 2))) *
    Real.exp (-1 / (2 * delta_t * (1 - k.rho ^ 2)) *
      ((delta_x - k.mu_x) ^ 2 / k.sigma_x ^ 2 +
        (delta_y - k.mu_y) ^ 2 / k.sigma_y ^ 2 -
        2 * k.rho * (delta_x - k.mu_x) * (delta_y - k.mu_y) /
          (k.sigma_x * k.sigma_y)))

/-- Method `nu` of `GaussianDiffusionKernel` on parallel history arrays. -/
noncomputable def GaussianDiffusionKernel.nu (k : GaussianDiffusionKernel) (t : ℝ) (s : Loc)
    (his_t : List ℝ) (his_s : List Loc) : List ℝ :=
  (his_t.zip his_s).map fun e => k.nuAt t s e.1 e.2

/-- State of `GaussianMixtureDiffusionKernel`: the component list `gdks`
built by `__init__` is modelled as a function from the component index. -/
structure GaussianMixtureDiffusionKernel where
  n_comp : ℕ
  w : ℕ → ℝ
  gdks : ℕ → GaussianDiffusionKernel

/-- The `__init__` of `GaussianMixtureDiffusionKernel`: component `k` is a
`GaussianDiffusionKernel` built from the `k`-th entries of the parameter
arrays, with the shared `beta` and `C`. -/
def GaussianMixtureDiffusionKernel.init (n_comp : ℕ)
    (w mu_x mu_y sigma_x sigma_y rho : ℕ → ℝ) (beta C : ℝ) :
    GaussianMixtureDiffusionKernel :=
  { n_comp := n_comp, w := w,
    gdks := fun k =>
      GaussianDiffusionKernel.init (mu_x k) (mu_y k) (sigma_x k) (sigma_y k)
        (rho k) beta C }

/-- One entry of the array returned by `GaussianMixtureDiffusionKernel.nu`:
the accumulation loop `nu += w[k] * gdks[k].nu(...)` acts elementwise on the
history axis, so each entry is the weighted sum of the component entries. -/
noncomputable def GaussianMixtureDiffusionKernel.nuAt (K : GaussianMixtureDiffusionKernel)
    (t : ℝ) (s : Loc) (ht : ℝ) (hs : Loc) : ℝ :=
  ∑ k ∈ Finset.range K.n_comp, K.w k * (K.gdks k).nuAt t s ht hs

/-- Method `nu` of `GaussianMixtureDiffusionKernel` on parallel history arrays. -/
noncomputable def GaussianMixtureDiffusionKernel.nu (K : GaussianMixtureDiffusionKernel)
    (t : ℝ) (s : Loc) (his_t : List ℝ) (his_s : List Loc) : List ℝ :=
  (his_t.zip his_s).map fun e => K.nuAt t s e.1 e.2

/-- Parameters stored by `SpatialVariantGaussianDiffusionKernel.__init__`:
the Gaussian parameters are functions of a location `(x, y)`. -/
structure SpatialVariantGaussianDiffusionKernel where
  C : ℝ
  beta : ℝ
  mu_x : ℝ → ℝ → ℝ
  mu_y : ℝ → ℝ → ℝ
  sigma_x : ℝ → ℝ → ℝ
  sigma_y : ℝ → ℝ → ℝ
  rho : ℝ → ℝ → ℝ

/-- The `__init__` of `SpatialVariantGaussianDiffusionKernel`, in its Python
parameter order `(f_mu_x, f_mu_y, f_sigma_x, f_sigma_y, f_rho, beta, C)`. -/
def SpatialVariantGaussianDiffusionKernel.init
    (f_mu_x f_mu_y f_sigma_x f_sigma_y f_rho : ℝ → ℝ → ℝ) (beta C : ℝ) :
    SpatialVariantGaussianDiffusionKernel :=
  { C := C, beta := beta, mu_x := f_mu_x, mu_y := f_mu_y,
    sigma_x := f_sigma_x, sigma_y := f_sigma_y, rho := f_rho }

/-- One entry of the array returned by
`SpatialVariantGaussianDiffusionKernel.nu`: the parameter functions are
evaluated at the historical event's own location `his_s`, then the
anisotropic Gaussian formula is applied. -/
noncomputable def SpatialVariantGaussianDiffusionKernel.nuAt
    (k : SpatialVariantGaussianDiffusionKernel) (t : ℝ) (s : Loc) (ht : ℝ)
    (hs : Loc) : ℝ :=
  let delta_t := t - ht
  let delta_x := s.1 - hs.1
  let delta_y := s.2 - hs.2
  let mu_xs := k.mu_x hs.1 hs.2
  let mu_ys := k.mu_y hs.1 hs.2
  let sigma_xs := k.sigma_x hs.1 hs.2
  let sigma_ys := k.sigma_y hs.1 hs.2
  let rhos := k.rho hs.1 hs.2
  Real.exp (-k.beta * delta_t) *
    (k.C / (2 * Real.pi * sigma_xs * sigma_ys * delta_t *
      Real.sqrt (1 - rhos ^ 2))) *
    Real.exp (-1 / (2 * delta_t * (1 - rhos ^ 2)) *
      ((delta_x - mu_xs) ^ 2 / sigma_xs ^ 2 +
        (delta_y - mu_ys) ^ 2 / sigma_ys ^ 2 -
        2 * rhos * (delta_x - mu_xs) * (delta_y - mu_ys) /
          (sigma_xs * sigma_ys)))

/-- Method `nu` of `SpatialVariantGaussianDiffusionKernel` on parallel history arrays. -/
noncomputable def SpatialVariantGaussianDiffusionKernel.nu
    (k : SpatialVariantGaussianDiffusionKernel) (t : ℝ) (s : Loc)
    (his_t : List ℝ) (his_s : List Loc) : List ℝ :=
  (his_t.zip his_s).map fun e => k.nuAt t s e.1 e.2

/-- State of `SpatialVariantGaussianMixtureDiffusionKernel`. -/
structure SpatialVariantGaussianMixtureDiffusionKernel where
  n_comp : ℕ
  w : ℕ → ℝ
  gdks : ℕ → SpatialVariantGaussianDiffusionKernel

/-- The `__init__` of `SpatialVariantGaussianMixtureDiffusionKernel`. -/
def SpatialVariantGaussianMixtureDiffusionKernel.init (n_comp : ℕ) (w : ℕ → ℝ)
    (f_mu_x f_mu_y f_sigma_x f_sigma_y f_rho : ℕ → ℝ → ℝ → ℝ) (beta C : ℝ) :
    SpatialVariantGaussianMixtureDiffusionKernel :=
  { n_comp := n_comp, w := w,
    gdks := fun k =>
      SpatialVariantGaussianDiffusionKernel.init (f_mu_x k) (f_mu_y k)
        (f_sigma_x k) (f_sigma_y k) (f_rho k) beta C }

/-- One entry of the array returned by
`SpatialVariantGaussianMixtureDiffusionKernel.nu`. -/
noncomputable def SpatialVariantGaussianMixtureDiffusionKernel.nuAt
    (K : SpatialVariantGaussianMixtureDiffusionKernel) (t : ℝ) (s : Loc)
    (ht : ℝ) (hs : Loc) : ℝ :=
  ∑ k ∈ Finset.range K.n_comp, K.w k * (K.gdks k).nuAt t s ht hs

/-- Method `nu` of `SpatialVariantGaussianMixtureDiffusionKernel` on parallel
history arrays. -/
noncomputable def SpatialVariantGaussianMixtureDiffusionKernel.nu
    (K : SpatialVariantGaussianMixtureDiffusionKernel) (t : ℝ) (s : Loc)
    (his_t : List ℝ) (his_s : List Loc) : List ℝ :=
  (his_t.zip his_s).map fun e => K.nuAt t s e.1 e.2

/-- Intensity model `HawkesLam` of the spatio-temporal Hawkes process.  The
Python object holds a background rate `mu`, a kernel object used only
through its method `nu`, and the configured bound `maximum`; the kernel is
therefore modelled by its `nu` function. -/
structure HawkesLam where
  mu : ℝ
  nu : ℝ → Loc → List ℝ → List Loc → List ℝ
  maximum : ℝ

/-- Method `value` of `HawkesLam`: `mu + np.sum(kernel.nu(t, s, his_t, his_s))` when
`len(his_t) > 0`, and `mu` otherwise. -/
noncomputable def HawkesLam.value (lam : HawkesLam) (t : ℝ) (his_t : List ℝ) (s : Loc)
    (his_s : List Loc) : ℝ :=
  if 0 < his_t.length then lam.mu + (lam.nu t s his_t his_s).sum else lam.mu

/-- Method `upper_bound` of `HawkesLam`: returns the configured `maximum`. -/
def HawkesLam.upper_bound (lam : HawkesLam) : ℝ :=
  lam.maximum

/-- Sampler object `SpatialTemporalPointProcess`: holds the intensity model `lam`. -/
structure SpatialTemporalPointProcess where
  lam : HawkesLam

/-- Time order on events, as used by `points[points[:, 0].argsort()]`. -/
def timeLE (p q : Event) : Prop :=
  p.1 ≤ q.1

/-- Strict time order on events. -/
def timeLT (p q : Event) : Prop :=
  p.1 < q.1

noncomputable instance : DecidableRel timeLE :=
  fun p q => Real.decidableLE p.1 q.1

instance : IsTotal Event timeLE :=
  ⟨fun p q => le_total p.1 q.1⟩

instance : IsTrans Event timeLE :=
  ⟨fun _ _ _ h h' => le_trans h h'⟩

/-- The deterministic part of
`SpatialTemporalPointProcess._homogeneous_poisson_sampling`: the Poisson
count and the uniform coordinate draws are modelled by the input list
`raw`, and the method then sorts the points in ascending order of their
temporal coordinate (`points[points[:, 0].argsort()]`). -/
noncomputable def SpatialTemporalPointProcess.homogeneous_poisson_sampling
    (_pp : SpatialTemporalPointProcess) (raw : List Event) : List Event :=
  raw.insertionSort timeLE

/-- The loop of `SpatialTemporalPointProcess._inhomogeneous_poisson_thinning`
over the candidates: `retained` is the running `retained_points` array,
`D i` is the `np.random.uniform()` variate drawn for the `i`-th candidate.
A candidate with `lam_value > lam_bar` aborts the whole call with `none`
(Python `return None`); otherwise the candidate is appended to `retained`
exactly when `lam_value >= D * lam_bar`. -/
noncomputable def thinningAux (lam : HawkesLam) (D : ℕ → ℝ) :
    List Event → List Event → ℕ → Option (List Event)
  | [], retained, _ => some retained
  | p :: rest, retained, i =>
    let lam_value := lam.value p.1 (retained.map Prod.fst) p.2
      (retained.map Prod.snd)
    let lam_bar := lam.upper_bound
    if lam_value > lam_bar then none
    else if lam_value ≥ D i * lam_bar then
      thinningAux lam D rest (retained ++ [p]) (i + 1)
    else
      thinningAux lam D rest retained (i + 1)

/-- Method `_inhomogeneous_poisson_thinning` of the sampler: starts the
loop at the first candidate with an empty `retained_points`. -/
noncomputable def SpatialTemporalPointProcess.inhomogeneous_poisson_thinning
    (pp : SpatialTemporalPointProcess) (homo_points : List Event)
    (D : ℕ → ℝ) : Option (List Event) :=
  thinningAux pp.lam D homo_points [] 0

/-- The list of `lam_value` intensities evaluated (in order) by the loop of
`_inhomogeneous_poisson_thinning`, ending at the first bound violation.
It recomputes exactly the evaluations of `thinningAux` on the same data. -/
noncomputable def thinningTrace (lam : HawkesLam) (D : ℕ → ℝ) :
    List Event → List Event → ℕ → List ℝ
  | [], _, _ => []
  | p :: rest, retained, i =>
    let lam_value := lam.value p.1 (retained.map Prod.fst) p.2
      (retained.map Prod.snd)
    let lam_bar := lam.upper_bound
    if lam_value > lam_bar then [lam_value]
    else if lam_value ≥ D i * lam_bar then
      lam_value :: thinningTrace lam D rest (retained ++ [p]) (i + 1)
    else
      lam_value :: thinningTrace lam D rest retained (i + 1)

/-- One attempt of the `while` loop of `generate`: the uniform candidate
points of the homogeneous stage and the uniform thinning variates. -/
abbrev Attempt : Type := List Event × (ℕ → ℝ)

/-- The `while b < batch_size` loop of `SpatialTemporalPointProcess.generate`:
`attempts a` supplies the random draws of the `a`-th loop iteration, `b`
counts accepted sequences, `acc` is `points_list`.  A failed thinning pass
(`points is None`) or a sequence shorter than `min_n_points` is discarded
and the same batch slot `b` is retried with the next attempt.  `fuel`
bounds the number of iterations; the Python loop has no such bound and may
run forever, which the `fuel = 0` case models as `none`. -/
noncomputable def generateAux (pp : SpatialTemporalPointProcess)
    (batch_size min_n_points : ℕ) (attempts : ℕ → Attempt) :
    ℕ → ℕ → ℕ → List (List Event) → Option (List (List Event))
  | 0, _, _, _ => none
  | fuel + 1, a, b, acc =>
    if b < batch_size then
      let homo_points := pp.homogeneous_poisson_sampling (attempts a).1
      match pp.inhomogeneous_poisson_thinning homo_points (attempts a).2 with
      | none => generateAux pp batch_size min_n_points attempts fuel (a + 1) b acc
      | some points =>
        if points.length < min_n_points then
          generateAux pp batch_size min_n_points attempts fuel (a + 1) b acc
        else
          generateAux pp batch_size min_n_points attempts fuel (a + 1) (b + 1)
            (acc ++ [points])
    else some acc

/-- One row `data[b]` of the output tensor of `generate`: the sequence as
rows `(t, x, y)`, right-padded with all-zero rows up to `max_len`. -/
def padSeq (max_len : ℕ) (points : List Event) : List (List ℝ) :=
  (List.range max_len).map fun i =>
    match points.get? i with
    | some p => [p.1, p.2.1, p.2.2]
    | none => [0, 0, 0]

/-- Method `generate` of the sampler: runs the sampling loop, then
packs `points_list` into the zero tensor `data` of shape
`(batch_size, max_len, 3)` via `data[b, :points_list[b].shape[0]] = points_list[b]`
and returns `(data, sizes)`.  `max_len` is the running maximum of the
accepted sequence lengths, starting at `0`. -/
noncomputable def SpatialTemporalPointProcess.generate
    (pp : SpatialTemporalPointProcess) (batch_size min_n_points : ℕ)
    (attempts : ℕ → Attempt) (fuel : ℕ) :
    Option (List (List (List ℝ)) × List ℕ) :=
  match generateAux pp batch_size min_n_points attempts fuel 0 0 [] with
  | none => none
  | some points_list =>
    let sizes := points_list.map List.length
    let max_len := sizes.foldl max 0
    some ((List.range batch_size).map fun b => padSeq max_len (points_list.getD b []),
      sizes)

/-- Pointwise form of the degeneracy of the anisotropic kernel: with
`mu_x = mu_y = rho = 0` its summand coincides with the isotropic one. -/
theorem nuAt_std_eq_degenerate_gaussian (C beta sigma_x sigma_y : ℝ) (t : ℝ)
    (s : Loc) (ht : ℝ) (hs : Loc) :
    (StdDiffusionKernel.init C beta sigma_x sigma_y).nuAt t s ht hs =
      (GaussianDiffusionKernel.init 0 0 sigma_x sigma_y 0 beta C).nuAt t s ht hs := by
  simp only [StdDiffusionKernel.nuAt, GaussianDiffusionKernel.nuAt,
    StdDiffusionKernel.init, GaussianDiffusionKernel.init]
  norm_num [Real.sqrt_one]

/-- Claim C10: for every `C`, `beta`, `sigma_x`, `sigma_y` and every input
with all time differences strictly positive, `StdDiffusionKernel.nu` equals
the `GaussianDiffusionKernel` with the same `C`, `beta`, `sigma_x`,
`sigma_y` and `mu_x = mu_y = rho = 0` on the same arguments. -/
theorem claim_C10 (C beta sigma_x sigma_y : ℝ) (t : ℝ) (s : Loc)
    (his_t : List ℝ) (his_s : List Loc) (hdt : ∀ ht ∈ his_t, 0 < t - ht) :
    (StdDiffusionKernel.init C beta sigma_x sigma_y).nu t s his_t his_s =
      (GaussianDiffusionKernel.init 0 0 sigma_x sigma_y 0 beta C).nu t s his_t his_s := by
  simp only [StdDiffusionKernel.nu, GaussianDiffusionKernel.nu]
  exact List.map_congr_left fun e _ =>
    nuAt_std_eq_degenerate_gaussian C beta sigma_x sigma_y t s e.1 e.2

/-- Witness for claim C10 at a concrete input. -/
theorem claim_C10_witness :
    (StdDiffusionKernel.init 1 1 1 1).nu 1 (0, 0) [0] [(0, 0)] =
      (GaussianDiffusionKernel.init 0 0 1 1 0 1 1).nu 1 (0, 0) [0] [(0, 0)] :=
  claim_C10 1 1 1 1 1 (0, 0) [0] [(0, 0)] (by norm_num)

/-- Claim C8: the spatially-varying kernel built from constant-valued
location functions produces exactly the plain anisotropic kernel's output
(given valid parameters and positive time differences, as the claim
assumes, though the identity needs none of it). -/
theorem claim_C8 (mu_x mu_y sigma_x sigma_y rho beta C : ℝ)
    (hrho : |rho| < 1) (hsx : 0 < sigma_x) (hsy : 0 < sigma_y)
    (t : ℝ) (s : Loc) (his_t : List ℝ) (his_s : List Loc)
    (hdt : ∀ ht ∈ his_t, 0 < t - ht) :
    (SpatialVariantGaussianDiffusionKernel.init (fun _ _ => mu_x)
        (fun _ _ => mu_y) (fun _ _ => sigma_x) (fun _ _ => sigma_y)
        (fun _ _ => rho) beta C).nu t s his_t his_s =
      (GaussianDiffusionKernel.init mu_x mu_y sigma_x sigma_y rho beta C).nu
        t s his_t his_s :=
  rfl

/-- Witness for claim C8 at a concrete input. -/
theorem claim_C8_witness :
    (SpatialVariantGaussianDiffusionKernel.init (fun _ _ => 0) (fun _ _ => 0)
        (fun _ _ => 1) (fun _ _ => 1) (fun _ _ => 0) 1 1).nu 1 (0, 0) [0] [(0, 0)] =
      (GaussianDiffusionKernel.init 0 0 1 1 0 1 1).nu 1 (0, 0) [0] [(0, 0)] :=
  claim_C8 0 0 1 1 0 1 1 (by norm_num) (by norm_num) (by norm_num) 1 (0, 0)
    [0] [(0, 0)] (by norm_num)

/-- Claim C7: the mixture kernel's output is exactly the weighted sum of its
component kernels' outputs (elementwise over the history), and with a
single component of weight one it coincides with the plain anisotropic
kernel built from the same parameters. -/
theorem claim_C7 (n_comp : ℕ) (w mu_x mu_y sigma_x sigma_y rho : ℕ → ℝ)
    (beta C : ℝ) (t : ℝ) (s : Loc) (his_t : List ℝ) (his_s : List Loc) :
    (GaussianMixtureDiffusionKernel.init n_comp w mu_x mu_y sigma_x sigma_y
        rho beta C).nu t s his_t his_s =
      (his_t.zip his_s).map (fun e => ∑ k ∈ Finset.range n_comp,
        w k * (GaussianDiffusionKernel.init (mu_x k) (mu_y k) (sigma_x k)
          (sigma_y k) (rho k) beta C).nuAt t s e.1 e.2) ∧
    (w 0 = 1 →
      (GaussianMixtureDiffusionKernel.init 1 w mu_x mu_y sigma_x sigma_y rho
          beta C).nu t s his_t his_s =
        (GaussianDiffusionKernel.init (mu_x 0) (mu_y 0) (sigma_x 0)
          (sigma_y 0) (rho 0) beta C).nu t s his_t his_s) := by
  constructor
  · rfl
  · intro hw
    simp only [GaussianMixtureDiffusionKernel.nu, GaussianDiffusionKernel.nu,
      GaussianMixtureDiffusionKernel.nuAt, GaussianMixtureDiffusionKernel.init,
      Finset.sum_range_one, hw, one_mul]

/-- Witness for claim C7 at a concrete input. -/
theorem claim_C7_witness :
    (GaussianMixtureDiffusionKernel.init 1 (fun _ => 1) (fun _ => 0)
        (fun _ => 0) (fun _ => 1) (fun _ => 1) (fun _ => 0) 1 1).nu 1 (0, 0)
        [0] [(0, 0)] =
      (GaussianDiffusionKernel.init 0 0 1 1 0 1 1).nu 1 (0, 0) [0] [(0, 0)] :=
  (claim_C7 1 (fun _ => 1) (fun _ => 0) (fun _ => 0) (fun _ => 1)
    (fun _ => 1) (fun _ => 0) 1 1 1 (0, 0) [0] [(0, 0)]).2 rfl

/-- Counterexample for claim C6: `GaussianDiffusionKernel.__init__` performs
no validation, so construction with `rho = 1` (so `|rho| ≥ 1`) succeeds and
simply stores the parameters. -/
theorem claim_C6_counterexample :
    1 ≤ |(GaussianDiffusionKernel.init 0 0 1 1 1 1 1).rho| ∧
    GaussianDiffusionKernel.init 0 0 1 1 1 1 1 =
      { C := 1, beta := 1, mu_x := 0, mu_y := 0, sigma_x := 1, sigma_y := 1,
        rho := 1 } := by
  constructor
  · norm_num [GaussianDiffusionKernel.init]
  · rfl

/-- Claim C6, amended: construction never fails; for every `rho` with
`|rho| ≥ 1` the constructor still succeeds and stores all its parameters
unvalidated. -/
theorem claim_C6 (mu_x mu_y sigma_x sigma_y rho beta C : ℝ)
    (hrho : 1 ≤ |rho|) :
    (GaussianDiffusionKernel.init mu_x mu_y sigma_x sigma_y rho beta C).rho = rho ∧
    (GaussianDiffusionKernel.init mu_x mu_y sigma_x sigma_y rho beta C).mu_x = mu_x ∧
    (GaussianDiffusionKernel.init mu_x mu_y sigma_x sigma_y rho beta C).mu_y = mu_y ∧
    (GaussianDiffusionKernel.init mu_x mu_y sigma_x sigma_y rho beta C).sigma_x = sigma_x ∧
    (GaussianDiffusionKernel.init mu_x mu_y sigma_x sigma_y rho beta C).sigma_y = sigma_y ∧
    (GaussianDiffusionKernel.init mu_x mu_y sigma_x sigma_y rho beta C).beta = beta ∧
    (GaussianDiffusionKernel.init mu_x mu_y sigma_x sigma_y rho beta C).C = C :=
  ⟨rfl, rfl, rfl, rfl, rfl, rfl, rfl⟩

/-- Witness for claim C6 at `rho = 1`. -/
theorem claim_C6_witness :
    (GaussianDiffusionKernel.init 0 0 1 1 1 1 1).rho = 1 :=
  (claim_C6 0 0 1 1 1 1 1 (by norm_num)).1

/-- Claim C4: for every intensity model, `value` returns exactly the
background rate `mu` on an empty history, and exactly `mu` plus the sum of
the kernel's excitation contributions on a non-empty history. -/
theorem claim_C4 (lam : HawkesLam) (t : ℝ) (his_t : List ℝ) (s : Loc)
    (his_s : List Loc) :
    (his_t = [] → lam.value t his_t s his_s = lam.mu) ∧
    (his_t ≠ [] →
      lam.value t his_t s his_s = lam.mu + (lam.nu t s his_t his_s).sum) := by
  constructor
  · rintro rfl
    simp [HawkesLam.value]
  · intro h
    rw [HawkesLam.value, if_pos (List.length_pos.mpr h)]

/-- Witness for claim C4 at a concrete intensity model. -/
theorem claim_C4_witness :
    ({ mu := 2, nu := (StdDiffusionKernel.init 1 1 1 1).nu, maximum := 5 } :
      HawkesLam).value 1 [] (0, 0) [] = 2 ∧
    ({ mu := 2, nu := (StdDiffusionKernel.init 1 1 1 1).nu, maximum := 5 } :
      HawkesLam).value 1 [0] (0, 0) [(0, 0)] =
      2 + ((StdDiffusionKernel.init 1 1 1 1).nu 1 (0, 0) [0] [(0, 0)]).sum :=
  ⟨(claim_C4 _ 1 [] (0, 0) []).1 rfl,
    (claim_C4 _ 1 [0] (0, 0) [(0, 0)]).2 (by simp)⟩

/-- Strict positivity of one isotropic-kernel contribution under valid
parameters and a positive time difference. -/
theorem nuAt_std_pos (k : StdDiffusionKernel) (t : ℝ) (s : Loc) (ht : ℝ)
    (hs : Loc) (hC : 0 < k.C) (hsx : 0 < k.sigma_x) (hsy : 0 < k.sigma_y)
    (hdt : 0 < t - ht) : 0 < k.nuAt t s ht hs := by
  simp only [StdDiffusionKernel.nuAt]
  positivity

/-- Strict positivity of one anisotropic-kernel contribution under valid
parameters and a positive time difference. -/
theorem nuAt_gaussian_pos (k : GaussianDiffusionKernel) (t : ℝ) (s : Loc)
    (ht : ℝ) (hs : Loc) (hC : 0 < k.C) (hsx : 0 < k.sigma_x)
    (hsy : 0 < k.sigma_y) (hrho : |k.rho| < 1) (hdt : 0 < t - ht) :
    0 < k.nuAt t s ht hs := by
  have h1 : 0 < 1 - k.rho ^ 2 := by
    have h := abs_lt.mp hrho
    nlinarith [h.1, h.2]
  simp only [GaussianDiffusionKernel.nuAt]
  positivity

/-- Strict positivity of one spatially-varying-kernel contribution when the
location functions return valid parameters at the historical location. -/
theorem nuAt_variant_pos (k : SpatialVariantGaussianDiffusionKernel) (t : ℝ)
    (s : Loc) (ht : ℝ) (hs : Loc) (hC : 0 < k.C)
    (hsx : 0 < k.sigma_x hs.1 hs.2) (hsy : 0 < k.sigma_y hs.1 hs.2)
    (hrho : |k.rho hs.1 hs.2| < 1) (hdt : 0 < t - ht) :
    0 < k.nuAt t s ht hs := by
  have h1 : 0 < 1 - k.rho hs.1 hs.2 ^ 2 := by
    have h := abs_lt.mp hrho
    nlinarith [h.1, h.2]
  simp only [SpatialVariantGaussianDiffusionKernel.nuAt]
  positivity

/-- Claim C9: every kernel variant returns only non-negative entries when
all time differences are strictly positive and the parameters are valid
(`C > 0`, spreads positive, `|rho| < 1`, non-negative mixture weights; for
the spatially-varying variants the location functions must return valid
parameters). -/
theorem claim_C9 (t : ℝ) (s : Loc) (his_t : List ℝ) (his_s : List Loc)
    (hdt : ∀ ht ∈ his_t, 0 < t - ht) :
    (∀ k : StdDiffusionKernel, 0 < k.C → 0 < k.sigma_x → 0 < k.sigma_y →
      ∀ v ∈ k.nu t s his_t his_s, 0 ≤ v) ∧
    (∀ k : GaussianDiffusionKernel, 0 < k.C → 0 < k.sigma_x →
      0 < k.sigma_y → |k.rho| < 1 → ∀ v ∈ k.nu t s his_t his_s, 0 ≤ v) ∧
    (∀ K : GaussianMixtureDiffusionKernel,
      (∀ j, 0 ≤ K.w j ∧ 0 < (K.gdks j).C ∧ 0 < (K.gdks j).sigma_x ∧
        0 < (K.gdks j).sigma_y ∧ |(K.gdks j).rho| < 1) →
      ∀ v ∈ K.nu t s his_t his_s, 0 ≤ v) ∧
    (∀ k : SpatialVariantGaussianDiffusionKernel, 0 < k.C →
      (∀ x y, 0 < k.sigma_x x y ∧ 0 < k.sigma_y x y ∧ |k.rho x y| < 1) →
      ∀ v ∈ k.nu t s his_t his_s, 0 ≤ v) ∧
    (∀ K : SpatialVariantGaussianMixtureDiffusionKernel,
      (∀ j, 0 ≤ K.w j ∧ 0 < (K.gdks j).C ∧
        (∀ x y, 0 < (K.gdks j).sigma_x x y ∧ 0 < (K.gdks j).sigma_y x y ∧
          |(K.gdks j).rho x y| < 1)) →
      ∀ v ∈ K.nu t s his_t his_s, 0 ≤ v) := by
  refine ⟨?_, ?_, ?_, ?_, ?_⟩
  · intro k hC hsx hsy v hv
    obtain ⟨e, he, rfl⟩ := List.mem_map.mp hv
    exact le_of_lt (nuAt_std_pos k t s e.1 e.2 hC hsx hsy
      (hdt e.1 (List.of_mem_zip he).1))
  · intro k hC hsx hsy hrho v hv
    obtain ⟨e, he, rfl⟩ := List.mem_map.mp hv
    exact le_of_lt (nuAt_gaussian_pos k t s e.1 e.2 hC hsx hsy hrho
      (hdt e.1 (List.of_mem_zip he).1))
  · intro K hK v hv
    obtain ⟨e, he, rfl⟩ := List.mem_map.mp hv
    refine Finset.sum_nonneg fun j _ => mul_nonneg (hK j).1 (le_of_lt ?_)
    exact nuAt_gaussian_pos (K.gdks j) t s e.1 e.2 (hK j).2.1 (hK j).2.2.1
      (hK j).2.2.2.1 (hK j).2.2.2.2 (hdt e.1 (List.of_mem_zip he).1)
  · intro k hC hk v hv
    obtain ⟨e, he, rfl⟩ := List.mem_map.mp hv
    exact le_of_lt (nuAt_variant_pos k t s e.1 e.2 hC (hk e.2.1 e.2.2).1
      (hk e.2.1 e.2.2).2.1 (hk e.2.1 e.2.2).2.2
      (hdt e.1 (List.of_mem_zip he).1))
  · intro K hK v hv
    obtain ⟨e, he, rfl⟩ := List.mem_map.mp hv
    refine Finset.sum_nonneg fun j _ => mul_nonneg (hK j).1 (le_of_lt ?_)
    exact nuAt_variant_pos (K.gdks j) t s e.1 e.2 (hK j).2.1
      ((hK j).2.2 e.2.1 e.2.2).1 ((hK j).2.2 e.2.1 e.2.2).2.1
      ((hK j).2.2 e.2.1 e.2.2).2.2 (hdt e.1 (List.of_mem_zip he).1)

/-- Witness for claim C9 at a concrete kernel, history and entry. -/
theorem claim_C9_witness :
    0 ≤ (StdDiffusionKernel.init 1 1 1 1).nuAt 1 (0, 0) 0 (0, 0) :=
  (claim_C9 1 (0, 0) [0] [(0, 0)] (by norm_num)).1
    (StdDiffusionKernel.init 1 1 1 1) (by norm_num [StdDiffusionKernel.init])
    (by norm_num [StdDiffusionKernel.init])
    (by norm_num [StdDiffusionKernel.init]) _ (by simp [StdDiffusionKernel.nu])

/-- A list sorted in weak time order whose times are pairwise distinct is
sorted in strict time order. -/
theorem sorted_timeLT_of_pairwise_ne {l : List Event}
    (hs : List.Sorted timeLE l)
    (hne : List.Pairwise (fun p q : Event => p.1 ≠ q.1) l) :
    List.Sorted timeLT l :=
  (hs.and hne).imp fun h => lt_of_le_of_ne h.1 h.2

/-- The homogeneous sampling stage returns a permutation of its raw draws. -/
theorem homogeneous_poisson_sampling_perm (pp : SpatialTemporalPointProcess)
    (raw : List Event) :
    List.Perm (pp.homogeneous_poisson_sampling raw) raw :=
  List.perm_insertionSort timeLE raw

/-- The homogeneous sampling stage sorts its raw draws into ascending time
order. -/
theorem homogeneous_poisson_sampling_sorted (pp : SpatialTemporalPointProcess)
    (raw : List Event) :
    List.Sorted timeLE (pp.homogeneous_poisson_sampling raw) :=
  List.sorted_insertionSort timeLE raw

/-- With pairwise-distinct raw times the homogeneous stage output is sorted
in strictly ascending time order. -/
theorem homogeneous_poisson_sampling_sorted_strict
    (pp : SpatialTemporalPointProcess) (raw : List Event)
    (hne : List.Pairwise (fun p q : Event => p.1 ≠ q.1) raw) :
    List.Sorted timeLT (pp.homogeneous_poisson_sampling raw) :=
  sorted_timeLT_of_pairwise_ne (homogeneous_poisson_sampling_sorted pp raw)
    (((homogeneous_poisson_sampling_perm pp raw).pairwise_iff
      fun h => Ne.symm h).mpr hne)

/-- A successful thinning pass returns its initial retained list extended by
a sublist of the candidate list. -/
theorem thinningAux_sublist (lam : HawkesLam) (D : ℕ → ℝ) :
    ∀ (l retained : List Event) (i : ℕ) (out : List Event),
      thinningAux lam D l retained i = some out →
      ∃ u, u.Sublist l ∧ out = retained ++ u := by
  intro l
  induction l with
  | nil =>
    intro retained i out h
    simp only [thinningAux, Option.some.injEq] at h
    exact ⟨[], List.nil_sublist _, by simp [← h]⟩
  | cons p rest ih =>
    intro retained i out h
    simp only [thinningAux] at h
    split_ifs at h with h1 h2
    · obtain ⟨u, hu, rfl⟩ := ih (retained ++ [p]) (i + 1) out h
      exact ⟨p :: u, hu.cons₂ p, by simp⟩
    · obtain ⟨u, hu, rfl⟩ := ih retained (i + 1) out h
      exact ⟨u, hu.cons p, rfl⟩

/-- On a successful thinning pass every intensity evaluated by the loop is
at most the upper bound. -/
theorem thinningAux_trace_le (lam : HawkesLam) (D : ℕ → ℝ) :
    ∀ (l retained : List Event) (i : ℕ) (out : List Event),
      thinningAux lam D l retained i = some out →
      ∀ v ∈ thinningTrace lam D l retained i, v ≤ lam.upper_bound := by
  intro l
  induction l with
  | nil =>
    intro retained i out _ v hv
    simp [thinningTrace] at hv
  | cons p rest ih =>
    intro retained i out h v hv
    simp only [thinningAux] at h
    simp only [thinningTrace] at hv
    split_ifs at h hv with h1 h2
    · rcases List.mem_cons.mp hv with rfl | hv'
      · exact not_lt.mp h1
      · exact ih (retained ++ [p]) (i + 1) out h v hv'
    · rcases List.mem_cons.mp hv with rfl | hv'
      · exact not_lt.mp h1
      · exact ih retained (i + 1) out h v hv'

/-- Every sequence in a successful `generateAux` run either was already in
the accumulator or is the value of a successful, long-enough thinning pass
on some attempt. -/
theorem generateAux_mem (pp : SpatialTemporalPointProcess)
    (batch_size min_n_points : ℕ) (attempts : ℕ → Attempt) :
    ∀ (fuel a b : ℕ) (acc : List (List Event)) (out : List (List Event)),
      generateAux pp batch_size min_n_points attempts fuel a b acc = some out →
      ∀ points ∈ out, points ∈ acc ∨
        ∃ a', pp.inhomogeneous_poisson_thinning
            (pp.homogeneous_poisson_sampling (attempts a').1)
            (attempts a').2 = some points ∧
          min_n_points ≤ points.length := by
  intro fuel
  induction fuel with
  | zero =>
    intro a b acc out h
    simp [generateAux] at h
  | succ fuel ih =>
    intro a b acc out h points hp
    simp only [generateAux] at h
    by_cases hb : b < batch_size
    · rw [if_pos hb] at h
      cases hthin : pp.inhomogeneous_poisson_thinning
          (pp.homogeneous_poisson_sampling (attempts a).1) (attempts a).2 with
      | none =>
        simp only [hthin] at h
        exact ih (a + 1) b acc out h points hp
      | some pts =>
        simp only [hthin] at h
        by_cases hlen : pts.length < min_n_points
        · rw [if_pos hlen] at h
          exact ih (a + 1) b acc out h points hp
        · rw [if_neg hlen] at h
          rcases ih (a + 1) (b + 1) (acc ++ [pts]) out h points hp with hmem | hex
          · rcases List.mem_append.mp hmem with h1 | h2
            · exact Or.inl h1
            · have hpe : points = pts := List.mem_singleton.mp h2
              subst hpe
              exact Or.inr ⟨a, hthin, not_lt.mp hlen⟩
          · exact Or.inr hex
    · rw [if_neg hb] at h
      obtain rfl := Option.some.inj h
      exact Or.inl hp

/-- A successful `generateAux` run starting with an accumulator of length
`b ≤ batch_size` returns exactly `batch_size` sequences. -/
theorem generateAux_length (pp : SpatialTemporalPointProcess)
    (batch_size min_n_points : ℕ) (attempts : ℕ → Attempt) :
    ∀ (fuel a b : ℕ) (acc : List (List Event)) (out : List (List Event)),
      acc.length = b → b ≤ batch_size →
      generateAux pp batch_size min_n_points attempts fuel a b acc = some out →
      out.length = batch_size := by
  intro fuel
  induction fuel with
  | zero =>
    intro a b acc out _ _ h
    simp [generateAux] at h
  | succ fuel ih =>
    intro a b acc out hacc hble h
    simp only [generateAux] at h
    by_cases hb : b < batch_size
    · rw [if_pos hb] at h
      cases hthin : pp.inhomogeneous_poisson_thinning
          (pp.homogeneous_poisson_sampling (attempts a).1) (attempts a).2 with
      | none =>
        simp only [hthin] at h
        exact ih (a + 1) b acc out hacc hble h
      | some pts =>
        simp only [hthin] at h
        by_cases hlen : pts.length < min_n_points
        · rw [if_pos hlen] at h
          exact ih (a + 1) b acc out hacc hble h
        · rw [if_neg hlen] at h
          exact ih (a + 1) (b + 1) (acc ++ [pts]) out (by simp [hacc]) hb h
    · rw [if_neg hb] at h
      obtain rfl := Option.some.inj h
      exact hacc.trans (le_antisymm hble (not_lt.mp hb))

/-- Claim C1: thinning processes the candidates in ascending time order
(strictly ascending whenever the raw proposal times are pairwise distinct,
which holds almost surely for uniform draws), starting from an empty
retained set; each candidate's intensity is computed from the currently
retained points only, and — whenever the intensity does not violate the
bound — the candidate is appended to the retained set if and only if
`lam_value ≥ D * upper_bound`, where `D` is the uniform variate drawn for
that candidate. -/
theorem claim_C1 (pp : SpatialTemporalPointProcess) (D : ℕ → ℝ) :
    (∀ raw : List Event,
      List.Sorted timeLE (pp.homogeneous_poisson_sampling raw) ∧
      (List.Pairwise (fun p q : Event => p.1 ≠ q.1) raw →
        List.Sorted timeLT (pp.homogeneous_poisson_sampling raw))) ∧
    (∀ homo_points : List Event,
      pp.inhomogeneous_poisson_thinning homo_points D =
        thinningAux pp.lam D homo_points [] 0) ∧
    (∀ (p : Event) (rest retained : List Event) (i : ℕ) (v : ℝ),
      v = pp.lam.value p.1 (retained.map Prod.fst) p.2
        (retained.map Prod.snd) →
      ¬v > pp.lam.upper_bound →
      thinningAux pp.lam D (p :: rest) retained i =
        thinningAux pp.lam D rest
          (if v ≥ D i * pp.lam.upper_bound then retained ++ [p] else retained)
          (i + 1) ∧
      ((if v ≥ D i * pp.lam.upper_bound then retained ++ [p] else retained) =
          retained ++ [p] ↔ v ≥ D i * pp.lam.upper_bound)) := by
  refine ⟨?_, ?_, ?_⟩
  · intro raw
    exact ⟨homogeneous_poisson_sampling_sorted pp raw,
      homogeneous_poisson_sampling_sorted_strict pp raw⟩
  · intro homo_points
    rfl
  · intro p rest retained i v hv hviol
    subst hv
    constructor
    · simp only [thinningAux]
      rw [if_neg hviol]
      by_cases h2 : pp.lam.value p.1 (retained.map Prod.fst) p.2
          (retained.map Prod.snd) ≥ D i * pp.lam.upper_bound
      · rw [if_pos h2, if_pos h2]
      · rw [if_neg h2, if_neg h2]
    · by_cases h2 : pp.lam.value p.1 (retained.map Prod.fst) p.2
          (retained.map Prod.snd) ≥ D i * pp.lam.upper_bound
      · simp [h2]
      · rw [if_neg h2]
        simp only [h2, iff_false]
        intro habs
        exact absurd (congrArg List.length habs) (by simp)

/-- Claim C2: every sequence recorded into a returned batch came from a
thinning pass on some attempt, is sorted in strictly ascending time order
(given pairwise-distinct proposal times, which hold almost surely for the
uniform draws), and every intensity evaluated during that pass was at most
the declared upper bound. -/
theorem claim_C2 (pp : SpatialTemporalPointProcess)
    (batch_size min_n_points fuel : ℕ) (attempts : ℕ → Attempt)
    (data : List (List (List ℝ))) (sizes : List ℕ)
    (hdist : ∀ a, List.Pairwise (fun p q : Event => p.1 ≠ q.1) (attempts a).1)
    (hgen : pp.generate batch_size min_n_points attempts fuel =
      some (data, sizes)) :
    ∃ points_list,
      generateAux pp batch_size min_n_points attempts fuel 0 0 [] =
        some points_list ∧
      ∀ points ∈ points_list,
        List.Sorted timeLT points ∧
        ∃ a, pp.inhomogeneous_poisson_thinning
            (pp.homogeneous_poisson_sampling (attempts a).1)
            (attempts a).2 = some points ∧
          ∀ v ∈ thinningTrace pp.lam (attempts a).2
              (pp.homogeneous_poisson_sampling (attempts a).1) [] 0,
            v ≤ pp.lam.upper_bound := by
  cases hg : generateAux pp batch_size min_n_points attempts fuel 0 0 [] with
  | none => simp [SpatialTemporalPointProcess.generate, hg] at hgen
  | some pl =>
    refine ⟨pl, rfl, ?_⟩
    intro points hp
    rcases generateAux_mem pp batch_size min_n_points attempts fuel 0 0 [] pl
        hg points hp with hmem | ⟨a, hthin, _⟩
    · simp at hmem
    · obtain ⟨u, hsub, hpts⟩ :=
        thinningAux_sublist pp.lam (attempts a).2 _ [] 0 points hthin
      have hstrict := homogeneous_poisson_sampling_sorted_strict pp
        (attempts a).1 (hdist a)
      refine ⟨?_, a, hthin,
        thinningAux_trace_le pp.lam (attempts a).2 _ [] 0 points hthin⟩
      rw [hpts, List.nil_append]
      exact hstrict.sublist hsub

/-- Claim C3: a bound violation at any candidate aborts the whole thinning
pass at once with `None` (no retained points survive, no later candidate is
looked at); `generate` reacts to a failed pass by retrying the same batch
slot with fresh randomness; and every sequence it does record comes from a
fully successful thinning pass of at least `min_n_points` events, so no
partial sequence reaches the caller. -/
theorem claim_C3 (pp : SpatialTemporalPointProcess) (D : ℕ → ℝ)
    (batch_size min_n_points : ℕ) (attempts : ℕ → Attempt) :
    (∀ (p : Event) (rest retained : List Event) (i : ℕ),
      pp.lam.value p.1 (retained.map Prod.fst) p.2 (retained.map Prod.snd) >
        pp.lam.upper_bound →
      thinningAux pp.lam D (p :: rest) retained i = none) ∧
    (∀ (fuel a b : ℕ) (acc : List (List Event)), b < batch_size →
      pp.inhomogeneous_poisson_thinning
        (pp.homogeneous_poisson_sampling (attempts a).1) (attempts a).2 =
        none →
      generateAux pp batch_size min_n_points attempts (fuel + 1) a b acc =
        generateAux pp batch_size min_n_points attempts fuel (a + 1) b acc) ∧
    (∀ (fuel : ℕ) (out : List (List Event)),
      generateAux pp batch_size min_n_points attempts fuel 0 0 [] =
        some out →
      ∀ points ∈ out, min_n_points ≤ points.length ∧
        ∃ a, pp.inhomogeneous_poisson_thinning
          (pp.homogeneous_poisson_sampling (attempts a).1) (attempts a).2 =
          some points) := by
  refine ⟨?_, ?_, ?_⟩
  · intro p rest retained i hviol
    simp only [thinningAux]
    rw [if_pos hviol]
  · intro fuel a b acc hb hthin
    simp only [generateAux]
    rw [if_pos hb]
    simp only [hthin]
  · intro fuel out h points hp
    rcases generateAux_mem pp batch_size min_n_points attempts fuel 0 0 []
        out h points hp with hmem | ⟨a, hthin, hlen⟩
    · simp at hmem
    · exact ⟨hlen, a, hthin⟩

/-- The running maximum of `generate` dominates its seed. -/
theorem foldl_max_init_le (l : List ℕ) : ∀ a : ℕ, a ≤ l.foldl max a := by
  induction l with
  | nil => intro a; exact le_refl a
  | cons x xs ih =>
    intro a
    exact le_trans (le_max_left a x) (ih (max a x))

/-- The running maximum of `generate` dominates every list element. -/
theorem foldl_max_le (l : List ℕ) : ∀ a n : ℕ, n ∈ l → n ≤ l.foldl max a := by
  induction l with
  | nil => intro a n hn; simp at hn
  | cons x xs ih =>
    intro a n hn
    rw [List.foldl_cons]
    rcases List.mem_cons.mp hn with rfl | hn'
    · exact le_trans (le_max_right a n) (foldl_max_init_le xs (max a n))
    · exact ih (max a x) n hn'

/-- The running maximum is the seed or an element of the list. -/
theorem foldl_max_eq_or_mem (l : List ℕ) :
    ∀ a : ℕ, l.foldl max a = a ∨ l.foldl max a ∈ l := by
  induction l with
  | nil => intro a; exact Or.inl rfl
  | cons x xs ih =>
    intro a
    rw [List.foldl_cons]
    rcases ih (max a x) with h | h
    · rw [h]
      rcases max_choice a x with h' | h'
      · exact Or.inl h'
      · exact Or.inr (by rw [h']; exact List.mem_cons_self x xs)
    · exact Or.inr (List.mem_cons_of_mem x h)

/-- On a non-empty list the running maximum seeded with `0` is attained. -/
theorem foldl_max_zero_mem (l : List ℕ) (h : l ≠ []) : l.foldl max 0 ∈ l := by
  rcases foldl_max_eq_or_mem l 0 with h0 | hmem
  · obtain ⟨x, hx⟩ := List.exists_mem_of_ne_nil l h
    have hx0 : x = 0 := Nat.le_zero.mp (h0 ▸ foldl_max_le l 0 x hx)
    rw [h0]
    exact hx0 ▸ hx
  · exact hmem

/-- Claim C5: a successful `generate` returns a `batch_size × max(lengths) ×
(1+2)` tensor (two spatial dimensions), together with the per-sequence true
lengths, and every row of sequence `b` at positions `lengths[b]` and beyond
is the all-zero event. -/
theorem claim_C5 (pp : SpatialTemporalPointProcess)
    (batch_size min_n_points fuel : ℕ) (attempts : ℕ → Attempt)
    (data : List (List (List ℝ))) (sizes : List ℕ)
    (hgen : pp.generate batch_size min_n_points attempts fuel =
      some (data, sizes)) :
    data.length = batch_size ∧
    sizes.length = batch_size ∧
    (∀ row ∈ data, row.length = sizes.foldl max 0) ∧
    (sizes ≠ [] → sizes.foldl max 0 ∈ sizes ∧
      ∀ n ∈ sizes, n ≤ sizes.foldl max 0) ∧
    (∀ row ∈ data, ∀ entry ∈ row, entry.length = 1 + 2) ∧
    (∀ (b j : ℕ) (hb : b < data.length) (hj : j < (data.get ⟨b, hb⟩).length),
      sizes.getD b 0 ≤ j → (data.get ⟨b, hb⟩).get ⟨j, hj⟩ = [0, 0, 0]) := by
  cases hg : generateAux pp batch_size min_n_points attempts fuel 0 0 [] with
  | none => simp [SpatialTemporalPointProcess.generate, hg] at hgen
  | some pl =>
    have hlen : pl.length = batch_size :=
      generateAux_length pp batch_size min_n_points attempts fuel 0 0 [] pl
        rfl (Nat.zero_le _) hg
    simp only [SpatialTemporalPointProcess.generate, hg, Option.some.injEq,
      Prod.mk.injEq] at hgen
    obtain ⟨hdata, hsizes⟩ := hgen
    subst hdata hsizes
    refine ⟨by simp, by simp [hlen], ?_, ?_, ?_, ?_⟩
    · intro row hrow
      obtain ⟨b, _, rfl⟩ := List.mem_map.mp hrow
      simp [padSeq]
    · intro hne
      exact ⟨foldl_max_zero_mem _ hne, fun n hn => foldl_max_le _ 0 n hn⟩
    · intro row hrow entry hentry
      obtain ⟨b, _, rfl⟩ := List.mem_map.mp hrow
      simp only [padSeq] at hentry
      obtain ⟨i, _, rfl⟩ := List.mem_map.mp hentry
      cases (pl.getD b []).get? i with
      | none => simp
      | some p => simp
    · intro b j hb hj hge
      have hbb : b < batch_size := by simpa using hb
      have hbl : b < pl.length := hlen ▸ hbb
      have hsget : (pl.map List.length).getD b 0 = (pl.getD b []).length := by
        simp [List.getD_eq_getElem?_getD, List.getElem?_map,
          List.getElem?_eq_getElem hbl]
      have hjlen : (pl.getD b []).length ≤ j := hsget ▸ hge
      simp only [List.get_eq_getElem, List.getElem_map, List.getElem_range,
        padSeq]
      rw [List.get?_eq_none.mpr hjlen]

/-- Witness for claim C1 at a concrete intensity model, candidate and
uniform stream. -/
theorem claim_C1_witness :
    List.Sorted timeLT
      (SpatialTemporalPointProcess.homogeneous_poisson_sampling
        ⟨⟨1, fun _ _ _ _ => [], 2⟩⟩
        [((2 : ℝ), ((0 : ℝ), (0 : ℝ))), ((1 : ℝ), ((0 : ℝ), (0 : ℝ)))]) ∧
    thinningAux ⟨1, fun _ _ _ _ => [], 2⟩ (fun _ => 0)
        [((5 : ℝ), ((0 : ℝ), (0 : ℝ)))] [] 0 =
      thinningAux ⟨1, fun _ _ _ _ => [], 2⟩ (fun _ => 0) []
        (if (1 : ℝ) ≥ (fun _ : ℕ => (0 : ℝ)) 0 *
            HawkesLam.upper_bound ⟨1, fun _ _ _ _ => [], 2⟩
          then [] ++ [((5 : ℝ), ((0 : ℝ), (0 : ℝ)))] else []) (0 + 1) := by
  constructor
  · exact ((claim_C1 ⟨⟨1, fun _ _ _ _ => [], 2⟩⟩ (fun _ => 0)).1
      [((2 : ℝ), ((0 : ℝ), (0 : ℝ))), ((1 : ℝ), ((0 : ℝ), (0 : ℝ)))]).2
      (by norm_num [List.pairwise_cons])
  · exact ((claim_C1 ⟨⟨1, fun _ _ _ _ => [], 2⟩⟩ (fun _ => 0)).2.2
      ((5 : ℝ), ((0 : ℝ), (0 : ℝ))) [] [] 0 1
      (by simp [HawkesLam.value])
      (by norm_num [HawkesLam.upper_bound])).1

/-- Witness for claim C2 at a concrete (empty-batch) `generate` run. -/
theorem claim_C2_witness :
    ∃ points_list,
      generateAux ⟨⟨1, fun _ _ _ _ => [], 2⟩⟩ 0 1 (fun _ => ([], fun _ => 0))
          1 0 0 [] = some points_list ∧
      ∀ points ∈ points_list,
        List.Sorted timeLT points ∧
        ∃ _a : ℕ, SpatialTemporalPointProcess.inhomogeneous_poisson_thinning
            ⟨⟨1, fun _ _ _ _ => [], 2⟩⟩
            (SpatialTemporalPointProcess.homogeneous_poisson_sampling
              ⟨⟨1, fun _ _ _ _ => [], 2⟩⟩ []) (fun _ => 0) = some points ∧
          ∀ v ∈ thinningTrace ⟨1, fun _ _ _ _ => [], 2⟩ (fun _ => 0)
              (SpatialTemporalPointProcess.homogeneous_poisson_sampling
                ⟨⟨1, fun _ _ _ _ => [], 2⟩⟩ []) [] 0,
            v ≤ HawkesLam.upper_bound ⟨1, fun _ _ _ _ => [], 2⟩ :=
  claim_C2 ⟨⟨1, fun _ _ _ _ => [], 2⟩⟩ 0 1 1 (fun _ => ([], fun _ => 0))
    [] [] (fun _ => List.Pairwise.nil) rfl

/-- Witness for claim C3: a bound-violating candidate aborts thinning, and
`generate` retries the slot after a failed pass. -/
theorem claim_C3_witness :
    thinningAux ⟨2, fun _ _ _ _ => [], 1⟩ (fun _ => 0)
        [((0 : ℝ), ((0 : ℝ), (0 : ℝ)))] [] 0 = none ∧
    generateAux ⟨⟨2, fun _ _ _ _ => [], 1⟩⟩ 1 1
        (fun _ => ([((0 : ℝ), ((0 : ℝ), (0 : ℝ)))], fun _ => 0)) 1 0 0 [] =
      generateAux ⟨⟨2, fun _ _ _ _ => [], 1⟩⟩ 1 1
        (fun _ => ([((0 : ℝ), ((0 : ℝ), (0 : ℝ)))], fun _ => 0)) 0 1 0 [] := by
  constructor
  · exact (claim_C3 ⟨⟨2, fun _ _ _ _ => [], 1⟩⟩ (fun _ => 0) 1 1
      (fun _ => ([((0 : ℝ), ((0 : ℝ), (0 : ℝ)))], fun _ => 0))).1
      (0, (0, 0)) [] [] 0
      (by norm_num [HawkesLam.value, HawkesLam.upper_bound])
  · exact (claim_C3 ⟨⟨2, fun _ _ _ _ => [], 1⟩⟩ (fun _ => 0) 1 1
      (fun _ => ([((0 : ℝ), ((0 : ℝ), (0 : ℝ)))], fun _ => 0))).2.1 0 0 0 []
      (by norm_num)
      (by norm_num [SpatialTemporalPointProcess.inhomogeneous_poisson_thinning,
        SpatialTemporalPointProcess.homogeneous_poisson_sampling, thinningAux,
        HawkesLam.value, HawkesLam.upper_bound])

/-- Witness for claim C5 at a concrete (empty-batch) `generate` run. -/
theorem claim_C5_witness :
    ([] : List (List (List ℝ))).length = 0 ∧
    ([] : List ℕ).length = 0 ∧
    (∀ row ∈ ([] : List (List (List ℝ))),
      row.length = ([] : List ℕ).foldl max 0) ∧
    (([] : List ℕ) ≠ [] → ([] : List ℕ).foldl max 0 ∈ ([] : List ℕ) ∧
      ∀ n ∈ ([] : List ℕ), n ≤ ([] : List ℕ).foldl max 0) ∧
    (∀ row ∈ ([] : List (List (List ℝ))), ∀ entry ∈ row,
      entry.length = 1 + 2) ∧
    (∀ (b j : ℕ) (hb : b < ([] : List (List (List ℝ))).length)
      (hj : j < (([] : List (List (List ℝ))).get ⟨b, hb⟩).length),
      ([] : List ℕ).getD b 0 ≤ j →
      (([] : List (List (List ℝ))).get ⟨b, hb⟩).get ⟨j, hj⟩ = [0, 0, 0]) :=
  claim_C5 ⟨⟨1, fun _ _ _ _ => [], 2⟩⟩ 0 1 1 (fun _ => ([], fun _ => 0))
    [] [] rfl
